import Mathlib

/-!
Verification of the region-merging core of an image-difference tool.

The source program (image_difference_finder.py) detects visual differences
between two images via an external API and post-processes the returned
rectangular regions with the method merge_and_adjust_regions: a greedy
seed-based clustering that merges nearby rectangles, pads the bounding box
of each cluster with a margin, clamps it to the canvas and truncates the
result to integers.  This file gives a shallow embedding of that method and
of the orchestration in process_images, and proves the specified properties
about them.

Modelling conventions:
* Python numbers on region dictionaries are modelled as rationals; the
  canvas dimensions (taken from PIL image sizes, annotated int in the
  source) are modelled as integers.
* math.sqrt is modelled as Real.sqrt; the comparison sqrt d <= t is
  reflected into the executable Boolean test 0 <= t and d <= t * t, and the
  bridge between the two is proved (close_eq_true_iff below).
* Python int() truncation toward zero is modelled by pyInt.
* The Python function mutates the list passed by the caller (pop(0) and
  remove inside the while loop), so merge_and_adjust_regions is modelled as
  a state-passing function returning both the produced list and the final
  state of the worklist argument seen by the caller.
-/

/-- A rectangular region as received from the detector: top-left corner and
extent, all numeric (possibly fractional), mirroring the region dictionaries
of the source. -/
structure Region where
  position_x : ℚ
  position_y : ℚ
  width : ℚ
  height : ℚ
deriving DecidableEq, Repr

/-- A merged region as produced by merge_and_adjust_regions: the source
builds the output dictionaries with int(...) on every field. -/
structure IntRegion where
  position_x : ℤ
  position_y : ℤ
  width : ℤ
  height : ℤ
deriving DecidableEq, Repr

/-- View an integer region as a plain region (used when the output of one
merge call is fed back as input to another). -/
def castRegion (q : IntRegion) : Region :=
  ⟨(q.position_x : ℚ), (q.position_y : ℚ), (q.width : ℚ), (q.height : ℚ)⟩

/-- View a list of integer regions as a list of plain regions. -/
def castList (l : List IntRegion) : List Region :=
  l.map castRegion

/-- Center of a region, from the inner helper distance of the source:
(x + width / 2, y + height / 2). -/
def center (r : Region) : ℚ × ℚ :=
  (r.position_x + r.width / 2, r.position_y + r.height / 2)

/-- Squared Euclidean distance between the centers of two regions. -/
def d2 (r1 r2 : Region) : ℚ :=
  ((center r1).1 - (center r2).1) ^ 2 + ((center r1).2 - (center r2).2) ^ 2

/-- Euclidean center distance of the source helper distance: math.sqrt of
the sum of squared center differences, modelled over the reals. -/
noncomputable def distance (r1 r2 : Region) : ℝ :=
  Real.sqrt ((((center r1).1 : ℝ) - ((center r2).1 : ℝ)) ^ 2 +
    (((center r1).2 : ℝ) - ((center r2).2 : ℝ)) ^ 2)

/-- Executable form of the test distance(r1, r2) <= distance_threshold from
the source: for a nonnegative radicand, sqrt d <= t holds exactly when
0 <= t and d <= t * t.  The equivalence with the real-valued distance is
proved in close_eq_true_iff. -/
def close (t : ℚ) (r1 r2 : Region) : Bool :=
  decide (0 ≤ t ∧ d2 r1 r2 ≤ t * t)

/-- Python int() truncation toward zero on a rational. -/
def pyInt (q : ℚ) : ℤ :=
  if 0 ≤ q then ⌊q⌋ else ⌈q⌉

/-- Minimum of a nonempty collection, as Python min over a generator:
fold of min over the remaining values starting from a first value. -/
def qmin (a : ℚ) (l : List ℚ) : ℚ :=
  l.foldl min a

/-- Maximum of a nonempty collection, as Python max over a generator. -/
def qmax (a : ℚ) (l : List ℚ) : ℚ :=
  l.foldl max a

/-- Lines 157-175 of the source: bounding box of the cluster
seed :: absorbed, expanded by the margin, clamped to the canvas, with all
four emitted values truncated to integers. -/
def emitCluster (m : ℚ) (w h : ℤ) (seed : Region) (absorbed : List Region) : IntRegion :=
  let min_x := qmin seed.position_x (absorbed.map Region.position_x) - m
  let min_y := qmin seed.position_y (absorbed.map Region.position_y) - m
  let max_x := qmax (seed.position_x + seed.width)
    (absorbed.map fun r => r.position_x + r.width) + m
  let max_y := qmax (seed.position_y + seed.height)
    (absorbed.map fun r => r.position_y + r.height) + m
  let min_x := max min_x 0
  let min_y := max min_y 0
  let max_x := min max_x (w : ℚ)
  let max_y := min max_y (h : ℚ)
  { position_x := pyInt min_x
    position_y := pyInt min_y
    width := pyInt (max_x - min_x)
    height := pyInt (max_y - min_y) }

/-- Lines 146-177 of the source.  The while loop pops the first remaining
region as seed, absorbs every other remaining region whose center distance
to the seed is within the threshold (removing it from the worklist), and
emits the padded, clamped, truncated bounding box of the cluster.  The
first component is the returned merged_regions list; the second component
is the final state of the regions list passed by the caller (the loop runs
until that list is empty). -/
def merge_and_adjust_regions (t m : ℚ) (w h : ℤ) : List Region → List IntRegion × List Region
  | [] => ([], [])
  | seed :: rest =>
    let p := merge_and_adjust_regions t m w h (rest.filter fun o => ! close t seed o)
    (emitCluster m w h seed (rest.filter (close t seed)) :: p.1, p.2)
termination_by l => l.length
decreasing_by
  simp only [List.length_cons]
  exact Nat.lt_succ_of_le (List.length_filter_le _ _)

/-- The clusters formed by the loop, in seed-selection order: each entry is
the seed popped at line 149 together with the regions absorbed at lines
152-155. -/
def clusters (t : ℚ) : List Region → List (Region × List Region)
  | [] => []
  | seed :: rest =>
    (seed, rest.filter (close t seed)) :: clusters t (rest.filter fun o => ! close t seed o)
termination_by l => l.length
decreasing_by
  simp only [List.length_cons]
  exact Nat.lt_succ_of_le (List.length_filter_le _ _)

/-- Smallest x coordinate over a cluster (pre-margin, pre-clamp). -/
def clusterMinX (p : Region × List Region) : ℚ :=
  qmin p.1.position_x (p.2.map Region.position_x)

/-- Smallest y coordinate over a cluster (pre-margin, pre-clamp). -/
def clusterMinY (p : Region × List Region) : ℚ :=
  qmin p.1.position_y (p.2.map Region.position_y)

/-- Largest right edge over a cluster (pre-margin, pre-clamp). -/
def clusterMaxX (p : Region × List Region) : ℚ :=
  qmax (p.1.position_x + p.1.width) (p.2.map fun r => r.position_x + r.width)

/-- Largest bottom edge over a cluster (pre-margin, pre-clamp). -/
def clusterMaxY (p : Region × List Region) : ℚ :=
  qmax (p.1.position_y + p.1.height) (p.2.map fun r => r.position_y + r.height)

/-- Modelled from the spec, step 3 of the RegionMerger algorithm: absorb a
rectangle into the cluster when the Euclidean distance between its center
and the seed center is at most the threshold.  Stated in the executable
square form; the equivalence with the real square-root distance is part of
the C1 theorem. -/
def specNear (t : ℚ) (seed other : Region) : Bool :=
  decide (0 ≤ t ∧ d2 seed other ≤ t ^ 2)

/-- Modelled from the spec, steps 4-7 of the RegionMerger algorithm:
bounding box over all cluster members, margin expansion on all four sides,
clamping to the canvas, emission with coordinates truncated to integers. -/
def specEmit (m : ℚ) (w h : ℤ) (seed : Region) (absorbed : List Region) : IntRegion :=
  let members := seed :: absorbed
  let minX := (members.map Region.position_x).foldl min seed.position_x
  let minY := (members.map Region.position_y).foldl min seed.position_y
  let maxX := (members.map fun r => r.position_x + r.width).foldl max
    (seed.position_x + seed.width)
  let maxY := (members.map fun r => r.position_y + r.height).foldl max
    (seed.position_y + seed.height)
  let cMinX := max (minX - m) 0
  let cMinY := max (minY - m) 0
  let cMaxX := min (maxX + m) (w : ℚ)
  let cMaxY := min (maxY + m) (h : ℚ)
  { position_x := pyInt cMinX
    position_y := pyInt cMinY
    width := pyInt (cMaxX - cMinX)
    height := pyInt (cMaxY - cMinY) }

/-- Modelled from the spec, steps 1-8 of the RegionMerger algorithm: treat
the input as a worklist; while it is nonempty pop the first element as the
seed of a new cluster, absorb every remaining rectangle within the
threshold of the seed, and emit the padded clamped bounding box of the
cluster; outputs follow seed-selection order. -/
def spec_merge (t m : ℚ) (w h : ℤ) : List Region → List IntRegion
  | [] => []
  | seed :: work =>
    specEmit m w h seed (work.partition (specNear t seed)).1 ::
      spec_merge t m w h (work.partition (specNear t seed)).2
termination_by l => l.length
decreasing_by
  simp only [List.partition_eq_filter_filter, List.length_cons]
  exact Nat.lt_succ_of_le (List.length_filter_le _ _)

/-- Arguments of the structured function call carried by a choice of the
detection response: the regions array (absent key modelled as the empty
list, matching arguments.get with default []). -/
structure FuncArgs where
  regions : List Region
deriving DecidableEq

/-- One choice of the detection response; the message either carries a
function_call payload or not. -/
structure Choice where
  function_call : Option FuncArgs
deriving DecidableEq

/-- Body of a successful detection response (absent choices key is
modelled as the empty list). -/
structure ResponseBody where
  choices : List Choice
deriving DecidableEq

/-- Observable actions of process_images, in program order: the error
reports of the three failure branches, the no-differences report, the
invocation of the merge step, each crop-and-save call (source image 1 or 2,
region, 1-based index, one saved file each), and the final dump of the
consolidated region list. -/
inductive Event where
  | errorNoResponse
  | errorNoChoices
  | errorNoFunctionCall
  | reportNoDifferences
  | mergeCall (regions : List Region)
  | saveCrop (sourceImage : ℕ) (region : IntRegion) (index : ℕ)
  | reportRegions (regions : List IntRegion)
deriving DecidableEq

/-- Lines 224-226 of the source: for each adjusted region, in order, crop
and save once from each source image with a 1-based index. -/
def cropEvents : ℕ → List IntRegion → List Event
  | _, [] => []
  | idx, r :: rest =>
    Event.saveCrop 1 r (idx + 1) :: Event.saveCrop 2 r (idx + 1) :: cropEvents (idx + 1) rest

/-- Lines 208-230 of the source: the for loop over the choices of the
response.  A choice without a function_call yields an error report and the
loop continues; a choice whose regions array is empty reports no
differences and returns from the whole function; otherwise the merge step
runs and every adjusted region is cropped and saved from both images,
followed by the JSON dump of the adjusted list. -/
def processChoices (t m : ℚ) (w h : ℤ) : List Choice → List Event
  | [] => []
  | c :: rest =>
    match c.function_call with
    | none => Event.errorNoFunctionCall :: processChoices t m w h rest
    | some args =>
      if args.regions.isEmpty then
        [Event.reportNoDifferences]
      else
        Event.mergeCall args.regions ::
          (cropEvents 0 (merge_and_adjust_regions t m w h args.regions).1 ++
            (Event.reportRegions (merge_and_adjust_regions t m w h args.regions).1 ::
              processChoices t m w h rest))

/-- Lines 206-234 of the source, with the detection call injected as a
parameter: query_openai returns None on a non-success status (and a falsy
body is treated the same way by the if at line 206), which is modelled by
the none case; an absent or empty choices array yields the no-choices
error; otherwise the choices are processed in order. -/
def process_images (t m : ℚ) (w h : ℤ) (result : Option ResponseBody) : List Event :=
  match result with
  | none => [Event.errorNoResponse]
  | some body =>
    if 0 < body.choices.length then processChoices t m w h body.choices
    else [Event.errorNoChoices]

/-- An integer-valued output region lies inside the canvas. -/
def ContainedZ (w h : ℤ) (q : IntRegion) : Prop :=
  0 ≤ q.position_x ∧ 0 ≤ q.position_y ∧
    q.position_x + q.width ≤ w ∧ q.position_y + q.height ≤ h

/-- An input region lies inside the canvas. -/
def ContainedQ (w h : ℤ) (r : Region) : Prop :=
  0 ≤ r.position_x ∧ 0 ≤ r.position_y ∧
    r.position_x + r.width ≤ (w : ℚ) ∧ r.position_y + r.height ≤ (h : ℚ)

/-- A region all of whose coordinates are integers. -/
def IntValued (r : Region) : Prop :=
  (∃ a : ℤ, r.position_x = (a : ℚ)) ∧ (∃ a : ℤ, r.position_y = (a : ℚ)) ∧
    (∃ a : ℤ, r.width = (a : ℚ)) ∧ (∃ a : ℤ, r.height = (a : ℚ))

theorem qmin_cons (a x : ℚ) (l : List ℚ) : qmin a (x :: l) = qmin (min a x) l := rfl

theorem qmax_cons (a x : ℚ) (l : List ℚ) : qmax a (x :: l) = qmax (max a x) l := rfl

theorem qmin_le_init (a : ℚ) (l : List ℚ) : qmin a l ≤ a := by
  induction l generalizing a with
  | nil => exact le_refl a
  | cons x xs ih => exact le_trans (ih (min a x)) (min_le_left a x)

theorem qmin_le_mem {b : ℚ} : ∀ (a : ℚ) (l : List ℚ), b ∈ l → qmin a l ≤ b := by
  intro a l
  induction l generalizing a with
  | nil => intro hb; cases hb
  | cons x xs ih =>
    intro hb
    rcases List.mem_cons.mp hb with h | h
    · subst h
      rw [qmin_cons]
      exact le_trans (qmin_le_init (min a b) xs) (min_le_right a b)
    · rw [qmin_cons]
      exact ih (min a x) h

theorem le_qmin {c a : ℚ} {l : List ℚ} (ha : c ≤ a) (hl : ∀ x ∈ l, c ≤ x) :
    c ≤ qmin a l := by
  induction l generalizing a with
  | nil => exact ha
  | cons x xs ih =>
    exact ih (le_min ha (hl x (List.mem_cons_self x xs)))
      fun y hy => hl y (List.mem_cons_of_mem x hy)

theorem init_le_qmax (a : ℚ) (l : List ℚ) : a ≤ qmax a l := by
  induction l generalizing a with
  | nil => exact le_refl a
  | cons x xs ih => exact le_trans (le_max_left a x) (ih (max a x))

theorem mem_le_qmax {b : ℚ} : ∀ (a : ℚ) (l : List ℚ), b ∈ l → b ≤ qmax a l := by
  intro a l
  induction l generalizing a with
  | nil => intro hb; cases hb
  | cons x xs ih =>
    intro hb
    rcases List.mem_cons.mp hb with h | h
    · subst h
      rw [qmax_cons]
      exact le_trans (le_max_right a b) (init_le_qmax (max a b) xs)
    · rw [qmax_cons]
      exact ih (max a x) h

theorem qmax_le {c a : ℚ} {l : List ℚ} (ha : a ≤ c) (hl : ∀ x ∈ l, x ≤ c) :
    qmax a l ≤ c := by
  induction l generalizing a with
  | nil => exact ha
  | cons x xs ih =>
    exact ih (max_le ha (hl x (List.mem_cons_self x xs)))
      fun y hy => hl y (List.mem_cons_of_mem x hy)

theorem pyInt_nonneg {q : ℚ} (h : 0 ≤ q) : 0 ≤ pyInt q := by
  unfold pyInt
  rw [if_pos h]
  exact Int.floor_nonneg.mpr h

theorem pyInt_le {q : ℚ} (h : 0 ≤ q) : (pyInt q : ℚ) ≤ q := by
  unfold pyInt
  rw [if_pos h]
  exact Int.floor_le q

theorem pyInt_lt_add_one (q : ℚ) : (pyInt q : ℚ) < q + 1 := by
  unfold pyInt
  split
  · exact lt_of_le_of_lt (Int.floor_le q) (lt_add_one q)
  · exact Int.ceil_lt_add_one q

theorem pyInt_intCast (n : ℤ) : pyInt ((n : ℚ)) = n := by
  unfold pyInt
  split
  · exact Int.floor_intCast n
  · exact Int.ceil_intCast n

theorem pyInt_add_pyInt_le {a d : ℚ} {w : ℤ} (ha : 0 ≤ a) (h : a + d ≤ (w : ℚ)) :
    pyInt a + pyInt d ≤ w := by
  have h1 : (pyInt a : ℚ) ≤ a := pyInt_le ha
  have h2 : (pyInt d : ℚ) < d + 1 := pyInt_lt_add_one d
  have h3 : ((pyInt a + pyInt d : ℤ) : ℚ) < ((w + 1 : ℤ) : ℚ) := by
    push_cast
    linarith
  have h4 : pyInt a + pyInt d < w + 1 := by exact_mod_cast h3
  omega

theorem emitCluster_eq (m : ℚ) (w h : ℤ) (seed : Region) (absorbed : List Region) :
    emitCluster m w h seed absorbed =
      { position_x := pyInt (max (clusterMinX (seed, absorbed) - m) 0)
        position_y := pyInt (max (clusterMinY (seed, absorbed) - m) 0)
        width := pyInt (min (clusterMaxX (seed, absorbed) + m) (w : ℚ) -
          max (clusterMinX (seed, absorbed) - m) 0)
        height := pyInt (min (clusterMaxY (seed, absorbed) + m) (h : ℚ) -
          max (clusterMinY (seed, absorbed) - m) 0) } := rfl

theorem emitCluster_contained (m : ℚ) (w h : ℤ) (seed : Region) (absorbed : List Region) :
    ContainedZ w h (emitCluster m w h seed absorbed) := by
  rw [emitCluster_eq]
  refine ⟨pyInt_nonneg (le_max_right _ 0), pyInt_nonneg (le_max_right _ 0), ?_, ?_⟩
  · exact pyInt_add_pyInt_le (le_max_right _ 0) (by rw [add_sub_cancel]; exact min_le_right _ _)
  · exact pyInt_add_pyInt_le (le_max_right _ 0) (by rw [add_sub_cancel]; exact min_le_right _ _)

theorem merge_nil (t m : ℚ) (w h : ℤ) :
    merge_and_adjust_regions t m w h [] = ([], []) := by
  simp [merge_and_adjust_regions]

theorem merge_cons (t m : ℚ) (w h : ℤ) (seed : Region) (rest : List Region) :
    merge_and_adjust_regions t m w h (seed :: rest) =
      (emitCluster m w h seed (rest.filter (close t seed)) ::
        (merge_and_adjust_regions t m w h (rest.filter fun o => ! close t seed o)).1,
       (merge_and_adjust_regions t m w h (rest.filter fun o => ! close t seed o)).2) := by
  rw [merge_and_adjust_regions]

theorem clusters_nil (t : ℚ) : clusters t [] = [] := by
  simp [clusters]

theorem clusters_cons (t : ℚ) (seed : Region) (rest : List Region) :
    clusters t (seed :: rest) =
      (seed, rest.filter (close t seed)) :: clusters t (rest.filter fun o => ! close t seed o) := by
  rw [clusters]

theorem merge_snd_eq_nil (t m : ℚ) (w h : ℤ) (l : List Region) :
    (merge_and_adjust_regions t m w h l).2 = [] := by
  induction l using merge_and_adjust_regions.induct t m w h with
  | case1 => rw [merge_nil]
  | case2 seed rest ih => rw [merge_cons]; exact ih

theorem merge_fst_eq_map_clusters (t m : ℚ) (w h : ℤ) (l : List Region) :
    (merge_and_adjust_regions t m w h l).1 =
      (clusters t l).map fun p => emitCluster m w h p.1 p.2 := by
  induction l using merge_and_adjust_regions.induct t m w h with
  | case1 => rw [merge_nil, clusters_nil]; rfl
  | case2 seed rest ih => rw [merge_cons, clusters_cons, List.map_cons, ih]

theorem clusters_join_perm (t : ℚ) (l : List Region) :
    (((clusters t l).map fun p => p.1 :: p.2).flatten).Perm l := by
  induction l using clusters.induct t with
  | case1 => rw [clusters_nil]; rfl
  | case2 seed rest ih =>
    rw [clusters_cons]
    simp only [List.map_cons, List.flatten_cons, List.cons_append]
    refine List.Perm.cons seed ?_
    exact List.Perm.trans (List.Perm.append_left _ ih) (List.filter_append_perm _ rest)

theorem clusters_length_le (t : ℚ) (l : List Region) :
    (clusters t l).length ≤ l.length := by
  induction l using clusters.induct t with
  | case1 =>
    rw [clusters_nil]
    exact Nat.le_refl _
  | case2 seed rest ih =>
    rw [clusters_cons]
    simp only [List.length_cons]
    exact Nat.succ_le_succ (le_trans ih (List.length_filter_le _ rest))

theorem merge_mem_contained (t m : ℚ) (w h : ℤ) (l : List Region) :
    ∀ q ∈ (merge_and_adjust_regions t m w h l).1, ContainedZ w h q := by
  intro q hq
  rw [merge_fst_eq_map_clusters] at hq
  obtain ⟨p, _, rfl⟩ := List.mem_map.mp hq
  exact emitCluster_contained m w h p.1 p.2

theorem d2_nonneg (r1 r2 : Region) : 0 ≤ d2 r1 r2 :=
  add_nonneg (sq_nonneg _) (sq_nonneg _)

theorem d2_cast (r1 r2 : Region) :
    ((d2 r1 r2 : ℚ) : ℝ) = (((center r1).1 : ℝ) - ((center r2).1 : ℝ)) ^ 2 +
      (((center r1).2 : ℝ) - ((center r2).2 : ℝ)) ^ 2 := by
  unfold d2
  push_cast
  ring

theorem close_eq_true_iff (t : ℚ) (r1 r2 : Region) :
    close t r1 r2 = true ↔ distance r1 r2 ≤ (t : ℝ) := by
  unfold close distance
  rw [decide_eq_true_eq, ← d2_cast, Real.sqrt_le_iff]
  constructor
  · rintro ⟨h1, h2⟩
    refine ⟨by exact_mod_cast h1, ?_⟩
    have h3 : ((t * t : ℚ) : ℝ) = (t : ℝ) ^ 2 := by push_cast; ring
    rw [← h3]
    exact_mod_cast h2
  · rintro ⟨h1, h2⟩
    refine ⟨by exact_mod_cast h1, ?_⟩
    have h3 : ((t * t : ℚ) : ℝ) = (t : ℝ) ^ 2 := by push_cast; ring
    rw [← h3] at h2
    exact_mod_cast h2

theorem specNear_eq_close (t : ℚ) (r o : Region) : specNear t r o = close t r o := by
  unfold specNear close
  exact decide_eq_decide.mpr (by rw [pow_two])

theorem specNear_fun_eq (t : ℚ) (r : Region) : specNear t r = close t r :=
  funext (specNear_eq_close t r)

theorem specEmit_eq_emitCluster (m : ℚ) (w h : ℤ) (seed : Region) (absorbed : List Region) :
    specEmit m w h seed absorbed = emitCluster m w h seed absorbed := by
  unfold specEmit emitCluster qmin qmax
  simp only [List.map_cons, List.foldl_cons, min_self, max_self]

theorem spec_merge_eq_merge (t m : ℚ) (w h : ℤ) (l : List Region) :
    spec_merge t m w h l = (merge_and_adjust_regions t m w h l).1 := by
  induction l using spec_merge.induct t m w h with
  | case1 => rw [merge_nil]; rw [spec_merge]
  | case2 seed work ih =>
    rw [spec_merge, merge_cons, specEmit_eq_emitCluster]
    simp only [List.partition_eq_filter_filter, specNear_fun_eq, Function.comp_def] at ih ⊢
    rw [ih]

theorem close_zero_iff (r1 r2 : Region) :
    close 0 r1 r2 = true ↔ center r1 = center r2 := by
  unfold close
  rw [decide_eq_true_eq]
  constructor
  · rintro ⟨-, h2⟩
    have h0 : d2 r1 r2 = 0 := le_antisymm (by simpa using h2) (d2_nonneg r1 r2)
    unfold d2 at h0
    rw [add_eq_zero_iff_of_nonneg (sq_nonneg _) (sq_nonneg _)] at h0
    obtain ⟨hx, hy⟩ := h0
    rw [sq_eq_zero_iff, sub_eq_zero] at hx
    rw [sq_eq_zero_iff, sub_eq_zero] at hy
    exact Prod.ext hx hy
  · intro hc
    refine ⟨le_refl 0, ?_⟩
    unfold d2
    rw [hc]
    simp

theorem min_add_max_of_sums (a b x y c : ℚ) (h1 : a + b = c) (h2 : x + y = c) :
    min a x + max b y = c := by
  rcases le_total a x with hax | hax
  · rw [min_eq_left hax, max_eq_left (by linarith)]
    exact h1
  · rw [min_eq_right hax, max_eq_right (by linarith)]
    exact h2

theorem qmin_add_qmax_of_sums (f g : Region → ℚ) (c : ℚ) :
    ∀ (l : List Region), (∀ r ∈ l, f r + g r = c) →
      ∀ (a b : ℚ), a + b = c → qmin a (l.map f) + qmax b (l.map g) = c := by
  intro l
  induction l with
  | nil => exact fun _ a b hab => hab
  | cons r rest ih =>
    intro hl a b hab
    rw [List.map_cons, List.map_cons, qmin_cons, qmax_cons]
    exact ih (fun s hs => hl s (List.mem_cons_of_mem r hs)) (min a (f r)) (max b (g r))
      (min_add_max_of_sums a b (f r) (g r) c hab (hl r (List.mem_cons_self r rest)))

theorem qmin_int {a : ℚ} {za : ℤ} (ha : a = (za : ℚ)) :
    ∀ (l : List ℚ), (∀ x ∈ l, ∃ z : ℤ, x = (z : ℚ)) → ∃ z : ℤ, qmin a l = (z : ℚ) := by
  intro l
  induction l generalizing a za with
  | nil => exact fun _ => ⟨za, ha⟩
  | cons x xs ih =>
    intro hl
    obtain ⟨zx, hx⟩ := hl x (List.mem_cons_self x xs)
    rw [qmin_cons]
    have hmin : min a x = ((min za zx : ℤ) : ℚ) := by
      rcases le_total za zx with hz | hz
      · rw [min_eq_left hz, ha, hx, min_eq_left (by exact_mod_cast hz)]
      · rw [min_eq_right hz, ha, hx, min_eq_right (by exact_mod_cast hz)]
    exact ih hmin fun y hy => hl y (List.mem_cons_of_mem x hy)

theorem qmax_int {a : ℚ} {za : ℤ} (ha : a = (za : ℚ)) :
    ∀ (l : List ℚ), (∀ x ∈ l, ∃ z : ℤ, x = (z : ℚ)) → ∃ z : ℤ, qmax a l = (z : ℚ) := by
  intro l
  induction l generalizing a za with
  | nil => exact fun _ => ⟨za, ha⟩
  | cons x xs ih =>
    intro hl
    obtain ⟨zx, hx⟩ := hl x (List.mem_cons_self x xs)
    rw [qmax_cons]
    have hmax : max a x = ((max za zx : ℤ) : ℚ) := by
      rcases le_total za zx with hz | hz
      · rw [max_eq_right hz, ha, hx, max_eq_right (by exact_mod_cast hz)]
      · rw [max_eq_left hz, ha, hx, max_eq_left (by exact_mod_cast hz)]
    exact ih hmax fun y hy => hl y (List.mem_cons_of_mem x hy)

theorem castRegion_intValued (q : IntRegion) : IntValued (castRegion q) :=
  ⟨⟨q.position_x, rfl⟩, ⟨q.position_y, rfl⟩, ⟨q.width, rfl⟩, ⟨q.height, rfl⟩⟩

theorem containedQ_castRegion {w h : ℤ} {q : IntRegion} (hq : ContainedZ w h q) :
    ContainedQ w h (castRegion q) := by
  obtain ⟨h1, h2, h3, h4⟩ := hq
  refine ⟨?_, ?_, ?_, ?_⟩
  · show (0 : ℚ) ≤ (q.position_x : ℚ)
    exact_mod_cast h1
  · show (0 : ℚ) ≤ (q.position_y : ℚ)
    exact_mod_cast h2
  · show (q.position_x : ℚ) + (q.width : ℚ) ≤ (w : ℚ)
    exact_mod_cast h3
  · show (q.position_y : ℚ) + (q.height : ℚ) ≤ (h : ℚ)
    exact_mod_cast h4

theorem center_castRegion (q : IntRegion) :
    center (castRegion q) =
      ((q.position_x : ℚ) + (q.width : ℚ) / 2, (q.position_y : ℚ) + (q.height : ℚ) / 2) := rfl

theorem pyInt_center_combo {mi ma cx : ℚ} {w : ℤ} (hmi0 : 0 ≤ mi) (hmaW : ma ≤ (w : ℚ))
    (hi : ∃ z : ℤ, mi = (z : ℚ)) (hA : ∃ z : ℤ, ma = (z : ℚ)) (hsum : mi + ma = 2 * cx) :
    (pyInt (max (mi - 0) 0) : ℚ) + (pyInt (min (ma + 0) (w : ℚ) - max (mi - 0) 0) : ℚ) / 2 = cx := by
  obtain ⟨zi, rfl⟩ := hi
  obtain ⟨zA, rfl⟩ := hA
  rw [sub_zero, add_zero, max_eq_left hmi0, min_eq_left hmaW]
  have e : ((zA : ℚ) - (zi : ℚ)) = ((zA - zi : ℤ) : ℚ) := by push_cast; ring
  rw [e, pyInt_intCast, pyInt_intCast]
  push_cast at hsum ⊢
  linarith

theorem emitCluster_center (w h : ℤ) (seed : Region) (absorbed : List Region)
    (hall : ∀ r ∈ seed :: absorbed, IntValued r ∧ ContainedQ w h r)
    (hcen : ∀ r ∈ seed :: absorbed, center r = center seed) :
    center (castRegion (emitCluster 0 w h seed absorbed)) = center seed := by
  obtain ⟨hseedI, hseedC⟩ := hall seed (List.mem_cons_self seed absorbed)
  have habsI : ∀ r ∈ absorbed, IntValued r ∧ ContainedQ w h r :=
    fun r hr => hall r (List.mem_cons_of_mem seed hr)
  have hmi0x : 0 ≤ clusterMinX (seed, absorbed) := by
    refine le_qmin hseedC.1 ?_
    intro x hx
    obtain ⟨r, hr, rfl⟩ := List.mem_map.mp hx
    exact (habsI r hr).2.1
  have hmaWx : clusterMaxX (seed, absorbed) ≤ (w : ℚ) := by
    refine qmax_le hseedC.2.2.1 ?_
    intro x hx
    obtain ⟨r, hr, rfl⟩ := List.mem_map.mp hx
    exact (habsI r hr).2.2.2.1
  have hmi0y : 0 ≤ clusterMinY (seed, absorbed) := by
    refine le_qmin hseedC.2.1 ?_
    intro x hx
    obtain ⟨r, hr, rfl⟩ := List.mem_map.mp hx
    exact (habsI r hr).2.2.1
  have hmaWy : clusterMaxY (seed, absorbed) ≤ (h : ℚ) := by
    refine qmax_le hseedC.2.2.2 ?_
    intro x hx
    obtain ⟨r, hr, rfl⟩ := List.mem_map.mp hx
    exact (habsI r hr).2.2.2.2
  have hix : ∃ z : ℤ, clusterMinX (seed, absorbed) = (z : ℚ) := by
    obtain ⟨zx, hzx⟩ := hseedI.1
    refine qmin_int hzx _ ?_
    intro x hx
    obtain ⟨r, hr, rfl⟩ := List.mem_map.mp hx
    exact (habsI r hr).1.1
  have hAx : ∃ z : ℤ, clusterMaxX (seed, absorbed) = (z : ℚ) := by
    obtain ⟨zx, hzx⟩ := hseedI.1
    obtain ⟨zw, hzw⟩ := hseedI.2.2.1
    have hsx : seed.position_x + seed.width = ((zx + zw : ℤ) : ℚ) := by
      rw [hzx, hzw]; push_cast; ring
    refine qmax_int hsx _ ?_
    intro x hx
    obtain ⟨r, hr, rfl⟩ := List.mem_map.mp hx
    obtain ⟨ax, hax⟩ := (habsI r hr).1.1
    obtain ⟨aw, haw⟩ := (habsI r hr).1.2.2.1
    exact ⟨ax + aw, by rw [hax, haw]; push_cast; ring⟩
  have hiy : ∃ z : ℤ, clusterMinY (seed, absorbed) = (z : ℚ) := by
    obtain ⟨zy, hzy⟩ := hseedI.2.1
    refine qmin_int hzy _ ?_
    intro x hx
    obtain ⟨r, hr, rfl⟩ := List.mem_map.mp hx
    exact (habsI r hr).1.2.1
  have hAy : ∃ z : ℤ, clusterMaxY (seed, absorbed) = (z : ℚ) := by
    obtain ⟨zy, hzy⟩ := hseedI.2.1
    obtain ⟨zh, hzh⟩ := hseedI.2.2.2
    have hsy : seed.position_y + seed.height = ((zy + zh : ℤ) : ℚ) := by
      rw [hzy, hzh]; push_cast; ring
    refine qmax_int hsy _ ?_
    intro x hx
    obtain ⟨r, hr, rfl⟩ := List.mem_map.mp hx
    obtain ⟨ay, hay⟩ := (habsI r hr).1.2.1
    obtain ⟨ah, hah⟩ := (habsI r hr).1.2.2.2
    exact ⟨ay + ah, by rw [hay, hah]; push_cast; ring⟩
  have hsumx : clusterMinX (seed, absorbed) + clusterMaxX (seed, absorbed) =
      2 * (center seed).1 := by
    refine qmin_add_qmax_of_sums Region.position_x (fun r => r.position_x + r.width)
      (2 * (center seed).1) absorbed ?_ seed.position_x (seed.position_x + seed.width) ?_
    · intro r hr
      have hc : (center r).1 = (center seed).1 :=
        congrArg Prod.fst (hcen r (List.mem_cons_of_mem seed hr))
      unfold center at hc
      dsimp at hc
      have hcs : (center seed).1 = seed.position_x + seed.width / 2 := rfl
      dsimp
      rw [hcs]
      linarith
    · have hcs : (center seed).1 = seed.position_x + seed.width / 2 := rfl
      rw [hcs]
      ring
  have hsumy : clusterMinY (seed, absorbed) + clusterMaxY (seed, absorbed) =
      2 * (center seed).2 := by
    refine qmin_add_qmax_of_sums Region.position_y (fun r => r.position_y + r.height)
      (2 * (center seed).2) absorbed ?_ seed.position_y (seed.position_y + seed.height) ?_
    · intro r hr
      have hc : (center r).2 = (center seed).2 :=
        congrArg Prod.snd (hcen r (List.mem_cons_of_mem seed hr))
      unfold center at hc
      dsimp at hc
      have hcs : (center seed).2 = seed.position_y + seed.height / 2 := rfl
      dsimp
      rw [hcs]
      linarith
    · have hcs : (center seed).2 = seed.position_y + seed.height / 2 := rfl
      rw [hcs]
      ring
  rw [emitCluster_eq, center_castRegion]
  dsimp only
  refine Prod.ext ?_ ?_
  · exact pyInt_center_combo hmi0x hmaWx hix hAx hsumx
  · exact pyInt_center_combo hmi0y hmaWy hiy hAy hsumy

theorem merge_zero_centers (w h : ℤ) :
    ∀ l : List Region, (∀ r ∈ l, IntValued r ∧ ContainedQ w h r) →
      (∀ q ∈ (merge_and_adjust_regions 0 0 w h l).1, ∃ r ∈ l, center (castRegion q) = center r) ∧
      List.Pairwise (fun q1 q2 => center (castRegion q1) ≠ center (castRegion q2))
        (merge_and_adjust_regions 0 0 w h l).1 := by
  intro l
  induction l using merge_and_adjust_regions.induct 0 0 w h with
  | case1 =>
    rw [merge_nil]
    exact fun _ => ⟨fun q hq => absurd hq (List.not_mem_nil q), List.Pairwise.nil⟩
  | case2 seed rest ih =>
    intro hl
    rw [merge_cons]
    have hfl : ∀ r ∈ rest.filter (fun o => ! close 0 seed o), IntValued r ∧ ContainedQ w h r :=
      fun r hr => hl r (List.mem_cons_of_mem seed (List.mem_filter.mp hr).1)
    obtain ⟨ihmem, ihpair⟩ := ih hfl
    have hhead :
        center (castRegion (emitCluster 0 w h seed (rest.filter (close 0 seed)))) = center seed := by
      apply emitCluster_center
      · intro r hr
        rcases List.mem_cons.mp hr with hcase | hcase
        · exact hcase ▸ hl seed (List.mem_cons_self seed rest)
        · exact hl r (List.mem_cons_of_mem seed (List.mem_filter.mp hcase).1)
      · intro r hr
        rcases List.mem_cons.mp hr with hcase | hcase
        · rw [hcase]
        · exact ((close_zero_iff seed r).mp (List.mem_filter.mp hcase).2).symm
    constructor
    · intro q hq
      rcases List.mem_cons.mp hq with hcase | hcase
      · exact ⟨seed, List.mem_cons_self seed rest, hcase ▸ hhead⟩
      · obtain ⟨r, hr, hcr⟩ := ihmem q hcase
        exact ⟨r, List.mem_cons_of_mem seed (List.mem_filter.mp hr).1, hcr⟩
    · refine List.pairwise_cons.mpr ⟨?_, ihpair⟩
      intro q hq
      obtain ⟨r, hr, hcr⟩ := ihmem q hq
      have hfar : close 0 seed r = false := by
        have hmem := (List.mem_filter.mp hr).2
        simpa using hmem
      rw [hhead, hcr]
      intro hcontra
      rw [← close_zero_iff seed r, hfar] at hcontra
      exact Bool.false_ne_true hcontra

theorem emitCluster_singleton_cast (w h : ℤ) (q : IntRegion) (hq : ContainedZ w h q) :
    emitCluster 0 w h (castRegion q) [] = q := by
  obtain ⟨h1, h2, h3, h4⟩ := hq
  rw [emitCluster_eq]
  have e1 : max (clusterMinX (castRegion q, []) - 0) 0 = (q.position_x : ℚ) := by
    show max ((q.position_x : ℚ) - 0) 0 = (q.position_x : ℚ)
    rw [sub_zero]
    exact max_eq_left (by exact_mod_cast h1)
  have e2 : max (clusterMinY (castRegion q, []) - 0) 0 = (q.position_y : ℚ) := by
    show max ((q.position_y : ℚ) - 0) 0 = (q.position_y : ℚ)
    rw [sub_zero]
    exact max_eq_left (by exact_mod_cast h2)
  have e3 : min (clusterMaxX (castRegion q, []) + 0) (w : ℚ) =
      (q.position_x : ℚ) + (q.width : ℚ) := by
    show min ((q.position_x : ℚ) + (q.width : ℚ) + 0) (w : ℚ) = (q.position_x : ℚ) + (q.width : ℚ)
    rw [add_zero]
    exact min_eq_left (by exact_mod_cast h3)
  have e4 : min (clusterMaxY (castRegion q, []) + 0) (h : ℚ) =
      (q.position_y : ℚ) + (q.height : ℚ) := by
    show min ((q.position_y : ℚ) + (q.height : ℚ) + 0) (h : ℚ) = (q.position_y : ℚ) + (q.height : ℚ)
    rw [add_zero]
    exact min_eq_left (by exact_mod_cast h4)
  rw [e1, e2, e3, e4]
  have ex : (q.position_x : ℚ) + (q.width : ℚ) - (q.position_x : ℚ) = ((q.width : ℤ) : ℚ) := by ring
  have ey : (q.position_y : ℚ) + (q.height : ℚ) - (q.position_y : ℚ) = ((q.height : ℤ) : ℚ) := by
    ring
  rw [ex, ey, pyInt_intCast, pyInt_intCast, pyInt_intCast, pyInt_intCast]

theorem merge_fix_of_pairwise (w h : ℤ) :
    ∀ Z : List IntRegion, (∀ q ∈ Z, ContainedZ w h q) →
      List.Pairwise (fun a b => center (castRegion a) ≠ center (castRegion b)) Z →
      (merge_and_adjust_regions 0 0 w h (castList Z)).1 = Z := by
  intro Z
  induction Z with
  | nil =>
    intro _ _
    rw [show castList [] = [] from rfl, merge_nil]
  | cons q0 rest ih =>
    intro hcont hpair
    obtain ⟨hq0, hrest⟩ := List.pairwise_cons.mp hpair
    rw [show castList (q0 :: rest) = castRegion q0 :: castList rest from rfl, merge_cons]
    have hfilter_none : (castList rest).filter (close 0 (castRegion q0)) = [] := by
      rw [List.filter_eq_nil_iff]
      intro r hr
      obtain ⟨qr, hqr, rfl⟩ := List.mem_map.mp hr
      intro hclose
      exact hq0 qr hqr ((close_zero_iff (castRegion q0) (castRegion qr)).mp hclose)
    have hfilter_all :
        (castList rest).filter (fun o => ! close 0 (castRegion q0) o) = castList rest := by
      rw [List.filter_eq_self]
      intro r hr
      obtain ⟨qr, hqr, rfl⟩ := List.mem_map.mp hr
      rw [Bool.not_eq_true']
      rw [← Bool.not_eq_true (close 0 (castRegion q0) (castRegion qr))]
      intro hclose
      exact hq0 qr hqr ((close_zero_iff (castRegion q0) (castRegion qr)).mp hclose)
    rw [hfilter_none, hfilter_all,
      emitCluster_singleton_cast w h q0 (hcont q0 (List.mem_cons_self q0 rest)),
      ih (fun q hq => hcont q (List.mem_cons_of_mem q0 hq)) hrest]

theorem castRegion_ten : (⟨10, 10, 10, 10⟩ : Region) = castRegion ⟨10, 10, 10, 10⟩ := by
  norm_num [castRegion]

theorem castRegion_twenty : (⟨20, 20, 10, 10⟩ : Region) = castRegion ⟨20, 20, 10, 10⟩ := by
  norm_num [castRegion]

theorem merge_single_example :
    merge_and_adjust_regions 1 0 100 100 [⟨10, 10, 10, 10⟩] = ([⟨10, 10, 10, 10⟩], []) := by
  rw [merge_cons]
  simp only [List.filter_nil]
  rw [merge_nil, castRegion_ten,
    emitCluster_singleton_cast 100 100 ⟨10, 10, 10, 10⟩
      ⟨by decide, by decide, by decide, by decide⟩]

theorem clusters_single_example :
    clusters 1 [⟨10, 10, 10, 10⟩] = [((⟨10, 10, 10, 10⟩ : Region), ([] : List Region))] := by
  rw [clusters_cons]
  simp only [List.filter_nil]
  rw [clusters_nil]

theorem close_one_far :
    close 1 (⟨10, 10, 10, 10⟩ : Region) ⟨20, 20, 10, 10⟩ = false := by
  rw [close, decide_eq_false_iff_not]
  norm_num [d2, center]

theorem merge_degenerate_example :
    (merge_and_adjust_regions 0 0 5 5 [⟨10, 10, 10, 10⟩]).1 = [⟨10, 10, -5, -5⟩] := by
  rw [merge_cons]
  simp only [List.filter_nil]
  rw [merge_nil, emitCluster_eq]
  have e1 : max (clusterMinX (⟨10, 10, 10, 10⟩, []) - 0) 0 = (10 : ℚ) := by
    show max ((10 : ℚ) - 0) 0 = 10
    norm_num
  have e2 : max (clusterMinY (⟨10, 10, 10, 10⟩, []) - 0) 0 = (10 : ℚ) := by
    show max ((10 : ℚ) - 0) 0 = 10
    norm_num
  have e3 : min (clusterMaxX (⟨10, 10, 10, 10⟩, []) + 0) ((5 : ℤ) : ℚ) = (5 : ℚ) := by
    show min ((10 : ℚ) + 10 + 0) (((5 : ℤ)) : ℚ) = 5
    norm_num
  have e4 : min (clusterMaxY (⟨10, 10, 10, 10⟩, []) + 0) ((5 : ℤ) : ℚ) = (5 : ℚ) := by
    show min ((10 : ℚ) + 10 + 0) (((5 : ℤ)) : ℚ) = 5
    norm_num
  rw [e1, e2, e3, e4]
  have p1 : pyInt 10 = 10 := by norm_num [pyInt]
  have p2 : pyInt ((5 : ℚ) - 10) = -5 := by
    have : ((5 : ℚ) - 10) = ((-5 : ℤ) : ℚ) := by norm_num
    rw [this, pyInt_intCast]
  rw [p1, p2]

theorem merge_two_far_example :
    (merge_and_adjust_regions 1 0 1000 1000 [⟨10, 10, 10, 10⟩, ⟨20, 20, 10, 10⟩]).1 =
      [⟨10, 10, 10, 10⟩, ⟨20, 20, 10, 10⟩] := by
  rw [merge_cons]
  simp only [List.filter_cons, List.filter_nil, close_one_far, Bool.not_false, if_true, if_false,
    Bool.false_eq_true, ite_true, ite_false]
  rw [merge_cons]
  simp only [List.filter_nil]
  rw [merge_nil, castRegion_ten, castRegion_twenty,
    emitCluster_singleton_cast 1000 1000 ⟨10, 10, 10, 10⟩
      ⟨by decide, by decide, by decide, by decide⟩,
    emitCluster_singleton_cast 1000 1000 ⟨20, 20, 10, 10⟩
      ⟨by decide, by decide, by decide, by decide⟩]

theorem process_images_some (t m : ℚ) (w h : ℤ) (body : ResponseBody)
    (hb : body.choices ≠ []) :
    process_images t m w h (some body) = processChoices t m w h body.choices := by
  unfold process_images
  dsimp only
  rw [if_pos (List.length_pos.mpr hb)]

theorem processChoices_all_none (t m : ℚ) (w h : ℤ) :
    ∀ cs : List Choice, (∀ c ∈ cs, c.function_call = none) →
      ∀ e ∈ processChoices t m w h cs, e = Event.errorNoFunctionCall := by
  intro cs
  induction cs with
  | nil =>
    intro _ e he
    simp only [processChoices] at he
    cases he
  | cons c rest ih =>
    intro hall e he
    have hc : c.function_call = none := hall c (List.mem_cons_self c rest)
    simp only [processChoices, hc] at he
    rcases List.mem_cons.mp he with hcase | hcase
    · exact hcase
    · exact ih (fun d hd => hall d (List.mem_cons_of_mem c hd)) e hcase

theorem process_example_eval :
    process_images 1 0 100 100 (some ⟨[⟨some ⟨[⟨10, 10, 10, 10⟩]⟩⟩, ⟨none⟩]⟩) =
      [Event.mergeCall [⟨10, 10, 10, 10⟩], Event.saveCrop 1 ⟨10, 10, 10, 10⟩ 1,
        Event.saveCrop 2 ⟨10, 10, 10, 10⟩ 1, Event.reportRegions [⟨10, 10, 10, 10⟩],
        Event.errorNoFunctionCall] := by
  rw [process_images_some 1 0 100 100 _ (by simp)]
  show processChoices 1 0 100 100 [⟨some ⟨[⟨10, 10, 10, 10⟩]⟩⟩, ⟨none⟩] = _
  simp only [processChoices, List.isEmpty_cons]
  rw [merge_single_example]
  simp [cropEvents]

/-- C1: merge_and_adjust_regions implements the specified greedy seed-based
clustering: the worklist is consumed seed-first in original order, every
other remaining rectangle whose center-to-center Euclidean distance to the
seed is at most the threshold is absorbed (measured against the seed only),
each cluster emits its bounding box expanded by the margin, clamped to the
canvas and truncated to integers, and outputs appear in seed-selection
order.  The first conjunct equates the code with the spec-modelled
algorithm; the second equates the executable absorption test with the
real-valued Euclidean distance comparison of the source. -/
theorem merge_implements_greedy_clustering (t m : ℚ) (w h : ℤ) (l : List Region) :
    (merge_and_adjust_regions t m w h l).1 = spec_merge t m w h l ∧
      ∀ r1 r2 : Region, close t r1 r2 = true ↔ distance r1 r2 ≤ (t : ℝ) :=
  ⟨(spec_merge_eq_merge t m w h l).symm, fun r1 r2 => close_eq_true_iff t r1 r2⟩

/-- C2: for every input list, margin and threshold, and positive canvas
dimensions, every rectangle returned by merge_and_adjust_regions satisfies
0 <= x, 0 <= y, x + width <= canvasWidth and y + height <= canvasHeight,
after the final truncation to integers. -/
theorem merge_outputs_within_canvas (t m : ℚ) (w h : ℤ) (hw : 0 < w) (hh : 0 < h)
    (l : List Region) :
    ∀ q ∈ (merge_and_adjust_regions t m w h l).1,
      0 ≤ q.position_x ∧ 0 ≤ q.position_y ∧
        q.position_x + q.width ≤ w ∧ q.position_y + q.height ≤ h :=
  fun q hq => merge_mem_contained t m w h l q hq

/-- C2 witness: the bounds theorem applied to the single output of a
concrete call on canvas 100 x 100. -/
theorem merge_outputs_within_canvas_witness :
    0 ≤ (⟨10, 10, 10, 10⟩ : IntRegion).position_x ∧
      0 ≤ (⟨10, 10, 10, 10⟩ : IntRegion).position_y ∧
      (⟨10, 10, 10, 10⟩ : IntRegion).position_x + (⟨10, 10, 10, 10⟩ : IntRegion).width ≤ 100 ∧
      (⟨10, 10, 10, 10⟩ : IntRegion).position_y + (⟨10, 10, 10, 10⟩ : IntRegion).height ≤ 100 :=
  merge_outputs_within_canvas 1 0 100 100 (by decide) (by decide) [⟨10, 10, 10, 10⟩]
    ⟨10, 10, 10, 10⟩ (by rw [merge_single_example]; exact List.mem_cons_self _ _)

/-- C3: the clusters partition the input (their members joined are a
permutation of the input list, so every input rectangle belongs to exactly
one cluster, none dropped, duplicated or shared), the output is exactly one
emitted rectangle per cluster, and every member of a cluster is contained
in that cluster's pre-margin, pre-clamp bounding box. -/
theorem merge_partitions_and_covers_inputs (t m : ℚ) (w h : ℤ) (l : List Region)
    (p : Region × List Region) (r : Region) (hp : p ∈ clusters t l) (hr : r ∈ p.1 :: p.2) :
    (((clusters t l).map fun q => q.1 :: q.2).flatten).Perm l ∧
      (merge_and_adjust_regions t m w h l).1 =
        (clusters t l).map (fun q => emitCluster m w h q.1 q.2) ∧
      clusterMinX p ≤ r.position_x ∧ r.position_x + r.width ≤ clusterMaxX p ∧
      clusterMinY p ≤ r.position_y ∧ r.position_y + r.height ≤ clusterMaxY p := by
  refine ⟨clusters_join_perm t l, merge_fst_eq_map_clusters t m w h l, ?_, ?_, ?_, ?_⟩
  · rcases List.mem_cons.mp hr with hcase | hcase
    · rw [hcase]
      exact qmin_le_init _ _
    · exact qmin_le_mem _ _ (List.mem_map.mpr ⟨r, hcase, rfl⟩)
  · rcases List.mem_cons.mp hr with hcase | hcase
    · rw [hcase]
      exact init_le_qmax _ _
    · exact mem_le_qmax _ _ (List.mem_map.mpr ⟨r, hcase, rfl⟩)
  · rcases List.mem_cons.mp hr with hcase | hcase
    · rw [hcase]
      exact qmin_le_init _ _
    · exact qmin_le_mem _ _ (List.mem_map.mpr ⟨r, hcase, rfl⟩)
  · rcases List.mem_cons.mp hr with hcase | hcase
    · rw [hcase]
      exact init_le_qmax _ _
    · exact mem_le_qmax _ _ (List.mem_map.mpr ⟨r, hcase, rfl⟩)

/-- C3 witness: the partition and coverage theorem applied to a concrete
one-region call and the unique cluster it produces. -/
theorem merge_partitions_and_covers_inputs_witness :
    (((clusters 1 [⟨10, 10, 10, 10⟩]).map fun q => q.1 :: q.2).flatten).Perm
        [⟨10, 10, 10, 10⟩] ∧
      (merge_and_adjust_regions 1 0 100 100 [⟨10, 10, 10, 10⟩]).1 =
        (clusters 1 [⟨10, 10, 10, 10⟩]).map (fun q => emitCluster 0 100 100 q.1 q.2) ∧
      clusterMinX (⟨10, 10, 10, 10⟩, []) ≤ (10 : ℚ) ∧
      (10 : ℚ) + 10 ≤ clusterMaxX (⟨10, 10, 10, 10⟩, []) ∧
      clusterMinY (⟨10, 10, 10, 10⟩, []) ≤ (10 : ℚ) ∧
      (10 : ℚ) + 10 ≤ clusterMaxY (⟨10, 10, 10, 10⟩, []) :=
  merge_partitions_and_covers_inputs 1 0 100 100 [⟨10, 10, 10, 10⟩]
    (⟨10, 10, 10, 10⟩, []) ⟨10, 10, 10, 10⟩
    (by rw [clusters_single_example]; exact List.mem_cons_self _ _)
    (List.mem_cons_self _ _)

/-- C4 counterexample: the claim that the caller's regions list is
unchanged after the call is false: the loop pops every element, so after a
call on one region the caller-visible list is empty, not the original
one-element list. -/
theorem merge_not_pure_counterexample :
    (merge_and_adjust_regions 1 0 100 100 [⟨10, 10, 10, 10⟩]).2 ≠ [⟨10, 10, 10, 10⟩] := by
  rw [merge_single_example]
  simp

/-- C4 amended: merge_and_adjust_regions performs no other side effect and
its results are a function of its arguments, but it destructively consumes
the regions list passed by the caller: after every call the caller-visible
worklist is empty (so for any nonempty input it is not unchanged). -/
theorem merge_empties_worklist (t m : ℚ) (w h : ℤ) (l : List Region) :
    (merge_and_adjust_regions t m w h l).2 = [] :=
  merge_snd_eq_nil t m w h l

/-- C5: with threshold 0 and margin 0, applying the merge twice yields a
fixed point: one further application returns the double-merge result
unchanged, and no two rectangles of that result can be merged further under
threshold 0 (their absorption test is false pairwise). -/
theorem merge_double_application_fixed_point (w h : ℤ) (x : List Region) :
    (merge_and_adjust_regions 0 0 w h
        (castList (merge_and_adjust_regions 0 0 w h
          (castList (merge_and_adjust_regions 0 0 w h x).1)).1)).1 =
      (merge_and_adjust_regions 0 0 w h
        (castList (merge_and_adjust_regions 0 0 w h x).1)).1 ∧
      List.Pairwise (fun a b => close 0 (castRegion a) (castRegion b) = false)
        (merge_and_adjust_regions 0 0 w h
          (castList (merge_and_adjust_regions 0 0 w h x).1)).1 := by
  have hY : ∀ r ∈ castList (merge_and_adjust_regions 0 0 w h x).1,
      IntValued r ∧ ContainedQ w h r := by
    intro r hr
    obtain ⟨q, hq, rfl⟩ := List.mem_map.mp hr
    exact ⟨castRegion_intValued q,
      containedQ_castRegion (merge_mem_contained 0 0 w h x q hq)⟩
  obtain ⟨-, hpair⟩ :=
    merge_zero_centers w h (castList (merge_and_adjust_regions 0 0 w h x).1) hY
  have hcont := merge_mem_contained 0 0 w h (castList (merge_and_adjust_regions 0 0 w h x).1)
  refine ⟨merge_fix_of_pairwise w h _ hcont hpair, ?_⟩
  refine hpair.imp ?_
  intro a b hne
  have hnt : close 0 (castRegion a) (castRegion b) ≠ true :=
    fun hc => hne ((close_zero_iff (castRegion a) (castRegion b)).mp hc)
  exact Bool.eq_false_iff.mpr hnt

/-- C6 counterexample: the claim says that whenever the detection result
contains a failure (here a choice without a function_call payload) no
merging and no crop calls happen; but on a response whose first choice
carries a valid payload and whose second choice lacks one, the loop over
choices both performs merge and crop calls and reports the failure, so
partial output is produced on a failure path. -/
theorem process_failure_with_output_counterexample :
    (∃ c ∈ (⟨[⟨some ⟨[⟨10, 10, 10, 10⟩]⟩⟩, ⟨none⟩]⟩ : ResponseBody).choices,
        c.function_call = none) ∧
      Event.mergeCall [⟨10, 10, 10, 10⟩] ∈
        process_images 1 0 100 100 (some ⟨[⟨some ⟨[⟨10, 10, 10, 10⟩]⟩⟩, ⟨none⟩]⟩) ∧
      Event.saveCrop 1 ⟨10, 10, 10, 10⟩ 1 ∈
        process_images 1 0 100 100 (some ⟨[⟨some ⟨[⟨10, 10, 10, 10⟩]⟩⟩, ⟨none⟩]⟩) := by
  refine ⟨⟨⟨none⟩, by simp, rfl⟩, ?_, ?_⟩ <;> rw [process_example_eval] <;> simp

/-- C6 amended: when the response is absent (non-success status or falsy
body), has no choices, or none of its choices carries a function_call
payload, process_images emits only failure reports: no merge invocation,
no crop or save call, no region dump.  A choice without a function_call
only ever contributes its own error report. -/
theorem process_failure_paths_only_report (t m : ℚ) (w h : ℤ) (result : Option ResponseBody)
    (hfail : ∀ body, result = some body → ∀ c ∈ body.choices, c.function_call = none) :
    ∀ e ∈ process_images t m w h result,
      e = Event.errorNoResponse ∨ e = Event.errorNoChoices ∨
        e = Event.errorNoFunctionCall := by
  intro e he
  cases result with
  | none =>
    unfold process_images at he
    dsimp only at he
    exact Or.inl (List.mem_singleton.mp he)
  | some body =>
    unfold process_images at he
    dsimp only at he
    by_cases hlen : 0 < body.choices.length
    · rw [if_pos hlen] at he
      exact Or.inr (Or.inr (processChoices_all_none t m w h body.choices (hfail body rfl) e he))
    · rw [if_neg hlen] at he
      exact Or.inr (Or.inl (List.mem_singleton.mp he))

/-- C6 witness: the amended failure-path theorem applied to a concrete
response with a single choice lacking a function_call. -/
theorem process_failure_paths_only_report_witness :
    Event.errorNoFunctionCall = Event.errorNoResponse ∨
      Event.errorNoFunctionCall = Event.errorNoChoices ∨
      Event.errorNoFunctionCall = Event.errorNoFunctionCall :=
  process_failure_paths_only_report 1 0 100 100 (some ⟨[⟨none⟩]⟩)
    (by
      intro body heq c hc
      cases heq
      rcases List.mem_singleton.mp hc with rfl
      rfl)
    Event.errorNoFunctionCall (by simp [process_images, processChoices])

/-- C7: when a choice carries a function_call whose regions array is
empty, process_images reports no differences and stops: the produced event
list is exactly the single no-differences report, so zero crop or save
calls occur, zero files are written, the merge step is never invoked, and
any remaining choices are not processed. -/
theorem process_empty_regions_stops (t m : ℚ) (w h : ℤ) (c : Choice) (rest : List Choice)
    (hc : c.function_call = some ⟨[]⟩) :
    process_images t m w h (some ⟨c :: rest⟩) = [Event.reportNoDifferences] := by
  rw [process_images_some t m w h _ (by simp)]
  show processChoices t m w h (c :: rest) = _
  simp [processChoices, hc]

/-- C7 witness: the empty-regions theorem applied to a concrete response
with one choice whose regions array is empty. -/
theorem process_empty_regions_stops_witness :
    process_images 1 0 100 100 (some ⟨[⟨some ⟨[]⟩⟩]⟩) = [Event.reportNoDifferences] :=
  process_empty_regions_stops 1 0 100 100 ⟨some ⟨[]⟩⟩ [] rfl

/-- C8: merge_and_adjust_regions has no special-case guard for degenerate
results: every cluster yields exactly one emitted rectangle (the output is
the one-to-one image of the cluster list, of equal length), and a
pathological input (a canvas smaller than the single region) shows the
degenerate rectangle with negative width and height being emitted as-is
rather than rejected or dropped. -/
theorem merge_emits_one_rectangle_per_cluster (t m : ℚ) (w h : ℤ) (l : List Region) :
    (merge_and_adjust_regions t m w h l).1 =
        (clusters t l).map (fun p => emitCluster m w h p.1 p.2) ∧
      ((merge_and_adjust_regions t m w h l).1).length = (clusters t l).length ∧
      (merge_and_adjust_regions 0 0 5 5 [⟨10, 10, 10, 10⟩]).1 = [⟨10, 10, -5, -5⟩] :=
  ⟨merge_fst_eq_map_clusters t m w h l,
    by rw [merge_fst_eq_map_clusters, List.length_map],
    merge_degenerate_example⟩

/-- C9: for the two regions (10,10,10,10) and (20,20,10,10) with threshold
1, margin 0 and canvas 1000 x 1000, the merge returns exactly the two
input rectangles, unchanged and in the original order. -/
theorem merge_two_far_regions_unchanged :
    (merge_and_adjust_regions 1 0 1000 1000 [⟨10, 10, 10, 10⟩, ⟨20, 20, 10, 10⟩]).1 =
      [⟨10, 10, 10, 10⟩, ⟨20, 20, 10, 10⟩] :=
  merge_two_far_example

/-- C10: the merge terminates on every finite input (it is a total
function of the worklist, each step removing at least the seed), and the
output has at most as many rectangles as the input. -/
theorem merge_output_length_le_input (t m : ℚ) (w h : ℤ) (l : List Region) :
    ((merge_and_adjust_regions t m w h l).1).length ≤ l.length := by
  rw [merge_fst_eq_map_clusters, List.length_map]
  exact clusters_length_le t l
